import Mathlib

/-!
# Verification of the azure-rag-service core

Shallow embedding, in Lean 4, of the retrieval-augmented answering pipeline of
the repository: the chunkers (`app/ingestion/chunker.py`,
`scripts/load_sample_data.py`), the retriever (`app/rag/retreiver.py`,
`app/infra/vector_store.py`), the context assembler (`app/rag/prompts.py`),
the confidence evaluator (`app/rag/evaluator.py`, which delegates to Python's
`difflib.SequenceMatcher`), the query orchestrator (`app/api/query.py`) and the
local-storage path guard (`app/infra/storage.py`).

Python strings are modelled as `List Char`, Python ints as `Int` (or `Nat`
where the source can only produce non-negative values), Python floats as `ℚ`,
and raised exceptions as `Option`/`none`.  Loops that need not terminate in
the source (the word-window chunker with a non-advancing window) are given a
fuel parameter; `none` means the Python loop has not finished within the given
fuel, so `(∀ fuel, ... = none)` witnesses non-termination.
-/

namespace RagSpec

/-! ## Chunker: `app/ingestion/chunker.py` -/

/-- A raw document as produced by `app/ingestion/loader.py`:
`{"text": ..., "source": ...}`. -/
structure Document where
  source : List Char
  text : List Char
deriving DecidableEq, Repr

/-- A chunk as produced by `chunk_documents`: `{"text": ..., "source": ...}`. -/
structure Chunk where
  text : List Char
  source : List Char
deriving DecidableEq, Repr

/-- The character windows `text[i:i+chunk_size]` for
`i in range(0, len(text), chunk_size)` (Python `range` with a positive step;
the claims assume `0 < chunk_size`, for step `0` Python raises `ValueError`,
modelled here as no windows). -/
def charWindows (chunk_size : Nat) (text : List Char) : List (List Char) :=
  if h : text = [] ∨ chunk_size = 0 then []
  else text.take chunk_size :: charWindows chunk_size (text.drop chunk_size)
termination_by text.length
decreasing_by
  push_neg at h
  have hlen : 0 < text.length := List.length_pos.mpr h.1
  simp only [List.length_drop]
  omega

/-- `chunk_documents(docs, chunk_size=500)` from `app/ingestion/chunker.py`:
for each document, append one chunk per character window, tagged with the
document's source. -/
def chunk_documents (docs : List Document) (chunk_size : Nat) : List Chunk :=
  (docs.map fun d => (charWindows chunk_size d.text).map fun t =>
    { text := t, source := d.source }).flatten

/-! ## Word-window chunker: `scripts/load_sample_data.py::chunk_text`

The Python loop is

    start = 0
    while start < len(words):
        end = min(start + chunk_size, len(words))
        chunks.append(" ".join(words[start:end]))
        if end == len(words): break
        start = end - overlap
        if start < 0: start = 0

`words` is `text.split()`; we keep each chunk as its word list (the source
joins the window with single spaces, a bijective presentation for
whitespace-split words).  The loop need not terminate (`overlap >= chunk_size`
gives a non-advancing window), hence the fuel parameter: `none` means the loop
has not finished within `fuel` iterations. -/

def chunkTextGo (words : List String) (chunk_size overlap : Nat) :
    Nat → Nat → Option (List (List String))
  | 0, _ => none
  | fuel + 1, start =>
    if start < words.length then
      let e := min (start + chunk_size) words.length
      let chunk := (words.drop start).take (e - start)
      if e = words.length then some [chunk]
      else
        match chunkTextGo words chunk_size overlap fuel (e - overlap) with
        | none => none
        | some rest => some (chunk :: rest)
    else some []

/-- `chunk_text` with enough fuel for every terminating run (the loop index
strictly increases whenever `overlap < chunk_size`, so `words.length + 1`
iterations always suffice; see `chunkTextGo_isSome`). -/
def chunk_text (words : List String) (chunk_size overlap : Nat) :
    Option (List (List String)) :=
  chunkTextGo words chunk_size overlap (words.length + 1) 0

/-! ## Vector store and retriever: `app/infra/vector_store.py`,
`app/rag/retreiver.py`

The Azure Search service is an external collaborator.  An index state is
modelled as the entry list the service would return for the query, already
ranked by similarity score descending (the ranking itself belongs to the
collaborator); `search` then applies the code's fixed `top_k=5`.  The
`SearchClient` is bound to the single configured index `AZURE_SEARCH_INDEX`;
no collection filter appears anywhere in the call. -/

/-- One indexed entry, as uploaded by `upload_embeddings`:
`{"id": f"{collection}-{i}", "content": ..., "source": ..., "vector": ...}`
(the vector only influences the collaborator's ranking and is abstracted
away). -/
structure IndexedEntry where
  id : List Char
  content : List Char
  source : List Char
deriving DecidableEq, Repr

/-- `upload_embeddings(vectors, chunks, collection)`: the documents built for
the single configured index, with positional ids `f"{collection}-{i}"`. -/
def upload_embeddings (chunks : List Chunk) (collection : List Char) :
    List IndexedEntry :=
  chunks.enum.map fun p =>
    { id := collection ++ '-' :: (Nat.repr p.1).data
      content := p.2.text
      source := p.2.source }

/-- `search(query_vector)` from `app/infra/vector_store.py`: queries the one
configured index with `top_k=5`.  `index` is the ranked entry list of that
index for this query; note that no collection restriction is applied and `k`
is fixed. -/
def search (index : List IndexedEntry) : List IndexedEntry :=
  index.take 5

/-- `"\n".join(...)` on char-list strings. -/
def newlineJoin (l : List (List Char)) : List Char :=
  List.intercalate ['\n'] l

/-- `retrieve_context(question, collection)` from `app/rag/retreiver.py`:
embeds the question (the embedding only feeds the collaborator's ranking,
already abstracted into `index`), calls `search`, joins the hit contents with
newlines and deduplicates the hit sources via `list(set(citations))` (Python's
set iteration order is unspecified; `List.dedup` is the deterministic
stand-in).  The `collection` argument is never used by the source. -/
def retrieve_context (index : List IndexedEntry)
    (question collection : List Char) : List Char × List (List Char) :=
  let results := search index
  (newlineJoin (results.map IndexedEntry.content),
    (results.map IndexedEntry.source).dedup)

/-! ## Confidence evaluator: `app/rag/evaluator.py`

`evaluate_answer` delegates to Python's `difflib.SequenceMatcher(None, a, b)`
and returns `round(sm.ratio(), 2)`.  We embed the relevant part of CPython's
`difflib`:

* `__chain_b` builds `b2j`, the ascending position lists of each element of
  `b`.  With `isjunk=None` the junk set `bjunk` stays empty; with the default
  `autojunk=True` and `len(b) >= 200`, "popular" elements (more than
  `len(b) // 100 + 1` occurrences) are dropped from `b2j` (`bPopular`).
* `find_longest_match(alo, ahi, blo, bhi)` runs the quadratic DP over
  `j2len` dictionaries (`flmNewf` is one row update, `flmRowBest` the best
  update while walking the ascending `b2j` positions, `flmDP` the row loop),
  then extends the best block over non-junk elements on both sides
  (`extendBack`, `extendFwd`).  The two final junk-extension loops of CPython
  are guarded by `isbjunk(...)`, which is constantly false here (`bjunk` is
  empty), so they are omitted as no-ops.
* `get_matching_blocks` recursively splits around the longest match; `ratio`
  is `2 * (sum of block sizes) / (len(a) + len(b))`, and `1.0` when both are
  empty.  (CPython's final merge of adjacent blocks does not change the size
  sum, and its queue produces the same block multiset.)

Floats are modelled as exact rationals and `round(x, 2)` as
`round (x * 100) / 100`; the claims' properties do not depend on the tie rule.
-/

/-- Autojunk popularity from `difflib.SequenceMatcher.__chain_b`: with
`len(b) >= 200`, elements with more than `len(b) // 100 + 1` occurrences are
removed from `b2j`. -/
def bPopular (b : List Char) (c : Char) : Bool :=
  decide (200 ≤ b.length) && decide (b.length / 100 + 1 < b.count c)

/-- One `newj2len` row of `find_longest_match`:
`newj2len[j] = j2len.get(j-1, 0) + 1` for each `j` in `b2j[a_i]` with
`blo <= j < bhi` (the function is `0` elsewhere, matching the dict's
`.get(_, 0)` reads; `j = 0` matches Python's absent key `-1`). -/
def flmNewf (c : Char) (b : List Char) (blo bhi : Nat) (f : Nat → Nat) :
    Nat → Nat := fun j =>
  if blo ≤ j ∧ j < bhi ∧ b.getD j ' ' = c ∧ bPopular b c = false then
    (if j = 0 then 0 else f (j - 1)) + 1
  else 0

/-- The best-block update while scanning row `i`: for each `j` in `b2j[a_i]`
(ascending, restricted to `[blo, bhi)`), if `k = newj2len[j] > bestsize` then
`besti, bestj, bestsize = i-k+1, j-k+1, k`. -/
def flmRowBest (c : Char) (b : List Char) (blo bhi i : Nat)
    (newf : Nat → Nat) (best : Nat × Nat × Nat) : Nat × Nat × Nat :=
  (List.range' blo (bhi - blo)).foldl
    (fun best j =>
      if b.getD j ' ' = c ∧ bPopular b c = false ∧ best.2.2 < newf j then
        (i + 1 - newf j, j + 1 - newf j, newf j)
      else best)
    best

/-- The DP part of `find_longest_match`: fold the rows `i ∈ [alo, ahi)`,
threading the `j2len` dict and the best block, starting from
`besti, bestj, bestsize = alo, blo, 0`. -/
def flmDP (a b : List Char) (alo ahi blo bhi : Nat) : Nat × Nat × Nat :=
  ((List.range' alo (ahi - alo)).foldl
    (fun st i =>
      let c := a.getD i ' '
      let newf := flmNewf c b blo bhi st.1
      (newf, flmRowBest c b blo bhi i newf st.2))
    (fun _ => 0, (alo, blo, 0))).2

/-- `while besti > alo and bestj > blo and not isbjunk(b[bestj-1]) and
a[besti-1] == b[bestj-1]: besti, bestj, bestsize = besti-1, bestj-1,
bestsize+1` (with `isbjunk` constantly false). -/
def extendBack (a b : List Char) (alo blo besti bestj bestsize : Nat) :
    Nat × Nat × Nat :=
  if h : alo < besti ∧ blo < bestj ∧
      a.getD (besti - 1) ' ' = b.getD (bestj - 1) ' ' then
    extendBack a b alo blo (besti - 1) (bestj - 1) (bestsize + 1)
  else (besti, bestj, bestsize)
termination_by besti
decreasing_by omega

/-- `while besti+bestsize < ahi and bestj+bestsize < bhi and not
isbjunk(b[bestj+bestsize]) and a[besti+bestsize] == b[bestj+bestsize]:
bestsize += 1` (with `isbjunk` constantly false). -/
def extendFwd (a b : List Char) (ahi bhi besti bestj bestsize : Nat) :
    Nat × Nat × Nat :=
  if h : besti + bestsize < ahi ∧ bestj + bestsize < bhi ∧
      a.getD (besti + bestsize) ' ' = b.getD (bestj + bestsize) ' ' then
    extendFwd a b ahi bhi besti bestj (bestsize + 1)
  else (besti, bestj, bestsize)
termination_by ahi - (besti + bestsize)
decreasing_by omega

/-- `SequenceMatcher.find_longest_match(alo, ahi, blo, bhi)` for
`isjunk=None`: the DP best block, extended over both sides (the junk
extension passes are no-ops, see the section comment). -/
def find_longest_match (a b : List Char) (alo ahi blo bhi : Nat) :
    Nat × Nat × Nat :=
  let d := flmDP a b alo ahi blo bhi
  let e := extendBack a b alo blo d.1 d.2.1 d.2.2
  extendFwd a b ahi bhi e.1 e.2.1 e.2.2

/-- A block `(i, j, k)` lies inside the query rectangle
`[alo, ahi) × [blo, bhi)`. -/
def validBlock (alo ahi blo bhi : Nat) (t : Nat × Nat × Nat) : Prop :=
  alo ≤ t.1 ∧ blo ≤ t.2.1 ∧ t.1 + t.2.2 ≤ ahi ∧ t.2.1 + t.2.2 ≤ bhi

/-- `get_matching_blocks`: recursively split around the longest match.  The
conjuncts beyond `0 < k` in the guard always hold (`find_longest_match`
returns a block inside the query rectangle, proved in
`find_longest_match_valid`, so the equation is exactly CPython's `if k:`
recursion, see `matchingBlocks_guard_faithful`); they are carried in the `if`
only to make termination structural. -/
def matchingBlocks (a b : List Char) (alo ahi blo bhi : Nat) :
    List (Nat × Nat × Nat) :=
  match hm : find_longest_match a b alo ahi blo bhi with
  | (i, j, k) =>
    if h : 0 < k ∧ alo ≤ i ∧ i + k ≤ ahi ∧ blo ≤ j ∧ j + k ≤ bhi then
      matchingBlocks a b alo i blo j ++
        (i, j, k) :: matchingBlocks a b (i + k) ahi (j + k) bhi
    else []
termination_by ahi - alo
decreasing_by
  · omega
  · omega

/-- Sum of the matched sizes: `sum(triple[-1] for triple in blocks)` (the
sentinel `(la, lb, 0)` contributes nothing, and CPython's merge of adjacent
blocks keeps the sum). -/
def sumSizes (l : List (Nat × Nat × Nat)) : Nat :=
  (l.map fun t => t.2.2).sum

/-- `matches` of `SequenceMatcher.ratio` over the whole pair. -/
def matchSum (a b : List Char) : Nat :=
  sumSizes (matchingBlocks a b 0 a.length 0 b.length)

/-- `SequenceMatcher.ratio()` via `difflib._calculate_ratio`:
`2.0 * matches / length if length else 1.0`. -/
def ratioQ (a b : List Char) : ℚ :=
  if a.length + b.length = 0 then 1
  else 2 * (matchSum a b : ℚ) / ((a.length : ℚ) + (b.length : ℚ))

/-- Python `str.lower()` (per-character case folding). -/
def lowerStr (s : List Char) : List Char :=
  s.map Char.toLower

/-- Python `round(x, 2)` on exact rationals. -/
def pyRound2 (q : ℚ) : ℚ :=
  (round (q * 100) : ℚ) / 100

/-- `evaluate_answer(answer, context)` from `app/rag/evaluator.py`:
`round(SequenceMatcher(None, answer.lower(), context.lower()).ratio(), 2)`. -/
def evaluate_answer (answer context : List Char) : ℚ :=
  pyRound2 (ratioQ (lowerStr answer) (lowerStr context))

/-! ## Query orchestrator: `app/api/query.py` -/

/-- The response envelope returned by the `/query` endpoint. -/
structure QueryResponse where
  answer : List Char
  citations : List (List Char)
  confidence : ℚ
  fallback_used : Bool
deriving DecidableEq, Repr

/-- The fixed refusal text (note the U+2019 apostrophe of the source). -/
def FALLBACK_TEXT : List Char :=
  "I don’t have enough information to answer confidently.".data

/-- `query(question, collection)` from `app/api/query.py`: retrieve, generate
(the completion provider is an external collaborator, passed as `generateFn`),
evaluate with the in-repo `evaluate_answer`, then gate on
`confidence < 0.65`. -/
def query (index : List IndexedEntry) (generateFn : List Char → List Char → List Char)
    (question collection : List Char) : QueryResponse :=
  let rc := retrieve_context index question collection
  let answer := generateFn question rc.1
  let confidence := evaluate_answer answer rc.1
  if confidence < 13/20 then
    { answer := FALLBACK_TEXT, citations := [], confidence := confidence
      fallback_used := true }
  else
    { answer := answer, citations := rc.2, confidence := confidence
      fallback_used := false }

/-! ## Context assembler: `app/rag/prompts.py` -/

/-- `DocumentContext` dataclass. -/
structure DocumentContext where
  id : List Char
  content : List Char
  metadata : Option (List (List Char × List Char)) := none
deriving DecidableEq, Repr

/-- Python whitespace for `str.strip()` (ASCII part). -/
def isPyWhitespace (c : Char) : Bool :=
  decide (c ∈ [' ', '\t', '\n', '\r', Char.ofNat 11, Char.ofNat 12])

/-- `content.strip()`. -/
def stripChars (s : List Char) : List Char :=
  ((s.dropWhile isPyWhitespace).reverse.dropWhile isPyWhitespace).reverse

/-- `_format_context`: `"[{id}]\n{content.strip()}"`. -/
def formatContext (ctx : DocumentContext) : List Char :=
  '[' :: (ctx.id ++ ']' :: '\n' :: stripChars ctx.content)

/-- The fixed separator `"\n\n---\n\n"`. -/
def SEPARATOR : List Char := "\n\n---\n\n".data

/-- The truncation marker `"\n\n...[truncated]"`. -/
def TRUNC_MARKER : List Char := "\n\n...[truncated]".data

/-- A concrete context item whose formatted form `"[x]\n" ++ 56 × 'a'` has 60
characters (used for the `max_chars < 100` truncation counterexample). -/
def demoCtxLong : DocumentContext :=
  { id := "x".data, content := List.replicate 56 'a', metadata := none }

/-- A concrete context item whose formatted form `"[a]\nxxxx"` has 8
characters. -/
def demoCtxSmall : DocumentContext :=
  { id := "a".data, content := "xxxx".data, metadata := none }

/-- A concrete context item whose formatted form `"[a]\nbb"` has 6
characters. -/
def demoCtxTiny : DocumentContext :=
  { id := "a".data, content := "bb".data, metadata := none }

/-- Python's `s[:n]` slice: negative `n` counts from the end
(`max(0, len(s) + n)` kept characters). -/
def pySliceTo (s : List Char) (n : Int) : List Char :=
  if 0 ≤ n then s.take n.toNat else s.take (s.length - n.natAbs)

/-- The packing loop of `assemble_context_block`: walk the contexts carrying
the `formatted` list and the running `total`.  First branch: a first item
exceeding `max_chars` is truncated to `piece[: max_chars - 100]` plus the
marker and the loop breaks.  Second branch: stop before the item that would
push `total + len(piece) + len(separator)` over `max_chars`. -/
def assembleGo (mc : Int) (sep : List Char) :
    List DocumentContext → List (List Char) → Nat → List (List Char)
  | [], formatted, _ => formatted
  | ctx :: rest, formatted, total =>
    let piece := formatContext ctx
    if ((piece.length : Int) > mc ∧ formatted = []) then
      [pySliceTo piece (mc - 100) ++ TRUNC_MARKER]
    else if ((total : Int) + piece.length + sep.length > mc) then
      formatted
    else
      assembleGo mc sep rest (formatted ++ [piece])
        (total + piece.length + sep.length)

/-- `assemble_context_block(contexts, max_chars, separator)`:
`separator.join(formatted)`. -/
def assemble_context_block (ctxs : List DocumentContext) (mc : Int)
    (sep : List Char) : List Char :=
  List.intercalate sep (assembleGo mc sep ctxs [] 0)

/-! ## Local storage path guard: `app/infra/storage.py::LocalStorage._path_for`

Filesystem paths are modelled as absolute component lists.  `Path.resolve()`
is the lexical normalisation (`.`/empty components dropped, `..` pops, and
`..` above the root stays at the root); `str(path)` renders `/a/b/c`.  Every
`LocalStorage` operation (`upload`, `download`, `delete`, `url`) calls
`_path_for` first, so `path_for = none` (a raised `StorageError`) is the only
guard between a key and the filesystem. -/

/-- `Path.resolve()` on an absolute component list. -/
def resolveComps (comps : List String) : List String :=
  comps.foldl
    (fun acc c =>
      if c = "." ∨ c = "" then acc
      else if c = ".." then acc.dropLast
      else acc ++ [c])
    []

/-- `str(path)` for an absolute path given by its components. -/
def renderPath (comps : List String) : List Char :=
  comps.foldl (fun acc c => acc ++ '/' :: c.data) []

/-- Python `str.startswith`. -/
def charsStartWith (s pre : List Char) : Bool :=
  decide (s.take pre.length = pre)

/-- `LocalStorage._path_for(key)`: `candidate = (self.root / key).resolve()`;
raise `StorageError` (`none`) unless
`str(candidate).startswith(str(self.root.resolve()))`. -/
def path_for (root key : List String) : Option (List String) :=
  let candidate := resolveComps (root ++ key)
  if charsStartWith (renderPath candidate) (renderPath (resolveComps root)) then
    some candidate
  else none

/-! ## Lemmas on the character-window chunker -/

theorem charWindows_nil (cs : Nat) : charWindows cs [] = [] := by
  rw [charWindows]
  simp

theorem charWindows_cons (cs : Nat) (hcs : 0 < cs) (t : List Char)
    (ht : t ≠ []) :
    charWindows cs t = t.take cs :: charWindows cs (t.drop cs) := by
  rw [charWindows, dif_neg]
  push_neg
  exact ⟨ht, by omega⟩

theorem charWindows_flatten_aux (cs : Nat) (hcs : 0 < cs) :
    ∀ (n : Nat) (t : List Char), t.length ≤ n →
      (charWindows cs t).flatten = t := by
  intro n
  induction n with
  | zero =>
    intro t ht
    have h0 : t = [] := List.length_eq_zero.mp (Nat.le_zero.mp ht)
    subst h0
    rw [charWindows_nil]
    rfl
  | succ n ih =>
    intro t ht
    by_cases h : t = []
    · subst h; rw [charWindows_nil]; rfl
    · rw [charWindows_cons cs hcs t h]
      have hpos : 0 < t.length := List.length_pos.mpr h
      have hd : (t.drop cs).length ≤ n := by
        simp only [List.length_drop]
        omega
      rw [List.flatten_cons, ih _ hd, List.take_append_drop]

theorem charWindows_flatten (cs : Nat) (hcs : 0 < cs) (t : List Char) :
    (charWindows cs t).flatten = t :=
  charWindows_flatten_aux cs hcs t.length t le_rfl

theorem charWindows_full_aux (cs : Nat) (hcs : 0 < cs) :
    ∀ (n : Nat) (t : List Char), t.length ≤ n → ∀ i ti tj,
      (charWindows cs t)[i]? = some ti →
      (charWindows cs t)[i+1]? = some tj → ti.length = cs := by
  intro n
  induction n with
  | zero =>
    intro t ht i ti tj h1 _
    have h0 : t = [] := List.length_eq_zero.mp (Nat.le_zero.mp ht)
    subst h0
    rw [charWindows_nil] at h1
    simp at h1
  | succ n ih =>
    intro t ht i ti tj h1 h2
    by_cases h : t = []
    · subst h; rw [charWindows_nil] at h1; simp at h1
    · have hpos : 0 < t.length := List.length_pos.mpr h
      rw [charWindows_cons cs hcs t h] at h1 h2
      cases i with
      | zero =>
        simp only [List.getElem?_cons_zero, Option.some.injEq] at h1
        simp only [List.getElem?_cons_succ] at h2
        have hne : charWindows cs (t.drop cs) ≠ [] := by
          intro hh
          rw [hh] at h2
          simp at h2
        have hdne : t.drop cs ≠ [] := by
          intro hh
          rw [hh, charWindows_nil] at hne
          exact hne rfl
        have hlen : cs < t.length := by
          have hp := List.length_pos.mpr hdne
          simp only [List.length_drop] at hp
          omega
        rw [← h1]
        simp only [List.length_take]
        omega
      | succ i =>
        simp only [List.getElem?_cons_succ] at h1 h2
        exact ih (t.drop cs) (by simp only [List.length_drop]; omega) i ti tj h1 h2

theorem charWindows_1200 (t : List Char) (ht : t.length = 1200) :
    (charWindows 500 t).map List.length = [500, 500, 200] := by
  have h1 : t ≠ [] := by
    intro h; rw [h] at ht; simp at ht
  rw [charWindows_cons 500 (by omega) t h1]
  have hd1 : (t.drop 500).length = 700 := by
    simp only [List.length_drop, ht]
  have h2 : t.drop 500 ≠ [] := by
    intro h; rw [h] at hd1; simp at hd1
  rw [charWindows_cons 500 (by omega) _ h2]
  have hd2 : ((t.drop 500).drop 500).length = 200 := by
    simp only [List.length_drop, ht]
  have h3 : (t.drop 500).drop 500 ≠ [] := by
    intro h; rw [h] at hd2; simp at hd2
  rw [charWindows_cons 500 (by omega) _ h3]
  have hd3 : (((t.drop 500).drop 500).drop 500) = [] := by
    apply List.length_eq_zero.mp
    simp only [List.length_drop, ht]
  rw [hd3, charWindows_nil]
  simp only [List.map_cons, List.map_nil, List.length_take, ht, hd1, hd2]
  norm_num

theorem chunk_documents_singleton (d : Document) (cs : Nat) :
    chunk_documents [d] cs =
      (charWindows cs d.text).map fun t => { text := t, source := d.source } := by
  simp [chunk_documents]

/-- C6: character-window chunking of a document concatenates back to the
original text, every chunk but the last has exactly `chunk_size` characters
(1200 characters with `chunk_size = 500` give lengths `[500, 500, 200]`),
every chunk carries the document's source, and empty text yields no chunks. -/
theorem chunk_documents_character_windows (d : Document) (cs : Nat)
    (hcs : 0 < cs) :
    ((chunk_documents [d] cs).map Chunk.text).flatten = d.text ∧
    (∀ c ∈ chunk_documents [d] cs, c.source = d.source) ∧
    (∀ i ti tj, ((chunk_documents [d] cs).map Chunk.text)[i]? = some ti →
      ((chunk_documents [d] cs).map Chunk.text)[i+1]? = some tj →
      ti.length = cs) ∧
    (d.text = [] → chunk_documents [d] cs = []) ∧
    (d.text.length = 1200 → cs = 500 →
      (chunk_documents [d] cs).map (fun c => c.text.length) = [500, 500, 200]) := by
  have hmap : (chunk_documents [d] cs).map Chunk.text = charWindows cs d.text := by
    rw [chunk_documents_singleton, List.map_map]
    have hcomp : (Chunk.text ∘ fun t => ({ text := t, source := d.source } : Chunk)) = id := rfl
    rw [hcomp, List.map_id]
  refine ⟨?_, ?_, ?_, ?_, ?_⟩
  · rw [hmap]
    exact charWindows_flatten cs hcs d.text
  · intro c hc
    rw [chunk_documents_singleton] at hc
    simp only [List.mem_map] at hc
    obtain ⟨t, _, rfl⟩ := hc
    rfl
  · intro i ti tj h1 h2
    rw [hmap] at h1 h2
    exact charWindows_full_aux cs hcs d.text.length d.text le_rfl i ti tj h1 h2
  · intro h
    rw [chunk_documents_singleton, h, charWindows_nil]
    rfl
  · intro h1200 h500
    subst h500
    rw [chunk_documents_singleton]
    rw [List.map_map]
    have : (fun c => c.text.length) ∘
        (fun t => ({ text := t, source := d.source } : Chunk)) = List.length := rfl
    rw [this]
    exact charWindows_1200 d.text h1200

/-- Witness for C6 at a concrete document and chunk size. -/
theorem chunk_documents_character_windows_witness :
    0 < 1 ∧
    ((((chunk_documents [{ source := "s".data, text := "ab".data }] 1).map
        Chunk.text).flatten = "ab".data) ∧
    (∀ c ∈ chunk_documents [{ source := "s".data, text := "ab".data }] 1,
      c.source = "s".data) ∧
    (∀ i ti tj,
      ((chunk_documents [{ source := "s".data, text := "ab".data }] 1).map
        Chunk.text)[i]? = some ti →
      ((chunk_documents [{ source := "s".data, text := "ab".data }] 1).map
        Chunk.text)[i+1]? = some tj → ti.length = 1) ∧
    (("ab".data : List Char) = [] →
      chunk_documents [{ source := "s".data, text := "ab".data }] 1 = []) ∧
    (("ab".data : List Char).length = 1200 → 1 = 500 →
      (chunk_documents [{ source := "s".data, text := "ab".data }] 1).map
        (fun c => c.text.length) = [500, 500, 200])) :=
  ⟨by decide,
    chunk_documents_character_windows
      { source := "s".data, text := "ab".data } 1 (by decide)⟩

/-! ## Lemmas on the word-window chunker -/

/-- C5 exhibit: with `overlap = chunk_size` (here `5 = 5`) on a text of more
than `chunk_size` words, the `chunk_text` loop never terminates — no amount of
fuel finishes it.  The source has no parameter validation at all (and no
`ConfigError` type anywhere), so the rejection the spec requires never
happens; instead the window stops advancing (`start = end - overlap` stays
`0`) and the Python `while` loop runs forever. -/
theorem chunk_text_nonadvancing_diverges (fuel : Nat) :
    chunkTextGo (List.replicate 10 "w") 5 5 fuel 0 = none := by
  induction fuel with
  | zero => rfl
  | succ n ih =>
    simp only [chunkTextGo, List.length_replicate]
    norm_num
    rw [ih]

theorem chunkTextGo_isSome (words : List String) (cs ov : Nat) (hov : ov < cs) :
    ∀ (fuel start : Nat), words.length - start < fuel →
      (chunkTextGo words cs ov fuel start).isSome := by
  intro fuel
  induction fuel with
  | zero => intro start h; omega
  | succ n ih =>
    intro start h
    simp only [chunkTextGo]
    by_cases hs : start < words.length
    · rw [if_pos hs]
      by_cases he : min (start + cs) words.length = words.length
      · rw [if_pos he]
        rfl
      · rw [if_neg he]
        have harg : words.length - (min (start + cs) words.length - ov) < n := by
          omega
        have hrec := ih (min (start + cs) words.length - ov) harg
        cases hm : chunkTextGo words cs ov n (min (start + cs) words.length - ov) with
        | none => rw [hm] at hrec; simp at hrec
        | some rest => rfl
    · rw [if_neg hs]
      rfl

/-- Shape of the first chunk produced from position `start`. -/
theorem chunkTextGo_head (words : List String) (fuel start : Nat)
    (c : List String) (L : List (List String))
    (h : chunkTextGo words 80 20 fuel start = some (c :: L)) :
    c = (words.drop start).take (min (start + 80) words.length - start) ∧
      start < words.length := by
  cases fuel with
  | zero => simp [chunkTextGo] at h
  | succ n =>
    simp only [chunkTextGo] at h
    by_cases hs : start < words.length
    · rw [if_pos hs] at h
      by_cases he : min (start + 80) words.length = words.length
      · rw [if_pos he] at h
        simp only [Option.some.injEq, List.cons.injEq] at h
        exact ⟨h.1.symm, hs⟩
      · rw [if_neg he] at h
        cases hm : chunkTextGo words 80 20 n (min (start + 80) words.length - 20) with
        | none => rw [hm] at h; simp at h
        | some rest =>
          rw [hm] at h
          simp only [Option.some.injEq, List.cons.injEq] at h
          exact ⟨h.1.symm, hs⟩
    · rw [if_neg hs] at h
      simp at h

theorem chunkTextGo_spec (words : List String) :
    ∀ (fuel start : Nat) (L : List (List String)),
      chunkTextGo words 80 20 fuel start = some L →
      ∀ i ci cj, L[i]? = some ci → L[i+1]? = some cj →
        ci = (words.drop (start + 60 * i)).take 80 ∧
        ci.length = 80 ∧ ci.drop 60 = cj.take 20 := by
  intro fuel
  induction fuel with
  | zero => intro start L h; simp [chunkTextGo] at h
  | succ n ih =>
    intro start L h i ci cj h1 h2
    simp only [chunkTextGo] at h
    by_cases hs : start < words.length
    · rw [if_pos hs] at h
      by_cases he : min (start + 80) words.length = words.length
      · rw [if_pos he] at h
        simp only [Option.some.injEq] at h
        subst h
        simp at h2
      · rw [if_neg he] at h
        have hlt : start + 80 < words.length := by omega
        have hmin : min (start + 80) words.length = start + 80 := by omega
        rw [hmin] at h
        cases hm : chunkTextGo words 80 20 n (start + 80 - 20) with
        | none => rw [hm] at h; simp at h
        | some rest =>
          rw [hm] at h
          simp only [Option.some.injEq] at h
          subst h
          have hstart' : start + 80 - 20 = start + 60 := by omega
          rw [hstart'] at hm
          cases i with
          | zero =>
            simp only [List.getElem?_cons_zero, Option.some.injEq] at h1
            simp only [List.getElem?_cons_succ] at h2
            -- cj is the head of `rest`
            cases rest with
            | nil => simp at h2
            | cons c' rest' =>
              simp only [List.getElem?_cons_zero, Option.some.injEq] at h2
              obtain ⟨hc', hstart'lt⟩ := chunkTextGo_head words n (start + 60) c' rest' hm
              have hc : ci = (words.drop start).take 80 := by
                rw [← h1]
                congr 1
                omega
              have hlen : ci.length = 80 := by
                rw [hc]
                simp only [List.length_take, List.length_drop]
                omega
              refine ⟨by simpa using hc, hlen, ?_⟩
              rw [hc, ← h2, hc']
              rw [List.drop_take, List.drop_drop, List.take_take]
              congr 1
              omega
          | succ i' =>
            simp only [List.getElem?_cons_succ] at h1 h2
            have := ih (start + 60) rest hm i' ci cj h1 h2
            refine ⟨?_, this.2.1, this.2.2⟩
            rw [this.1]
            congr 2
            omega
    · rw [if_neg hs] at h
      simp only [Option.some.injEq] at h
      subst h
      simp at h1

/-- C7: word-window chunking with `chunk_size = 80, overlap = 20` terminates,
window `i` is the 80-word slice starting `60 = chunk_size - overlap` words
after the previous window's start (`words[60*i : 60*i + 80]`), each non-final
window has exactly 80 words, and the last 20 words of window `i` equal the
first 20 words of window `i+1` for every adjacent pair. -/
theorem chunk_text_word_overlap (words : List String) :
    ∃ L, chunk_text words 80 20 = some L ∧
      ∀ i ci cj, L[i]? = some ci → L[i+1]? = some cj →
        ci = (words.drop (60 * i)).take 80 ∧
        ci.length = 80 ∧ ci.drop 60 = cj.take 20 := by
  have hs := chunkTextGo_isSome words 80 20 (by omega) (words.length + 1) 0
    (by omega)
  obtain ⟨L, hL⟩ := Option.isSome_iff_exists.mp hs
  refine ⟨L, hL, fun i ci cj h1 h2 => ?_⟩
  have := chunkTextGo_spec words (words.length + 1) 0 L hL i ci cj h1 h2
  simpa using this

/-! ## Lemmas on the retriever and the query gate -/

theorem ragIntercalateNil (sep : List Char) :
    List.intercalate sep ([] : List (List Char)) = [] := by
  simp [List.intercalate]

theorem ragIntercalateSingleton (sep x : List Char) :
    List.intercalate sep [x] = x := by
  simp [List.intercalate]

theorem ragIntercalateConsCons (sep x y : List Char) (t : List (List Char)) :
    List.intercalate sep (x :: y :: t) = x ++ sep ++ List.intercalate sep (y :: t) := by
  simp [List.intercalate, List.intersperse]

theorem ragDedupToFinset (l : List (List Char)) :
    l.dedup.toFinset = l.toFinset := by
  ext a
  simp [List.mem_toFinset, List.mem_dedup]

/-- C8: zero hits give an empty context and an empty citation list, with no
error anywhere on the path (the source is a plain fold over the result
list). -/
theorem retrieve_context_no_hits (index : List IndexedEntry)
    (q c : List Char) (h : search index = []) :
    retrieve_context index q c = ([], []) := by
  simp only [retrieve_context, h, List.map_nil, List.dedup_nil, newlineJoin]
  rw [ragIntercalateNil]

/-- Witness for C8 on the empty index. -/
theorem retrieve_context_no_hits_witness :
    search ([] : List IndexedEntry) = [] ∧
    retrieve_context ([] : List IndexedEntry) "q".data "col".data = ([], []) :=
  ⟨rfl, retrieve_context_no_hits [] "q".data "col".data rfl⟩

/-- C2 counterexample: the single indexed entry was uploaded under collection
`"other"` (its id even carries the `"other-"` prefix), yet querying with
`collection = "mine"` still returns its source as a citation.  Retrieval is
not restricted to the requested collection — the `collection` parameter of
`retrieve_context` is dead in the source and `search` queries the one
configured index — so the claim as stated is false at this input (it would
require the citation set of a foreign collection's query to be empty). -/
theorem retrieve_context_ignores_collection :
    (∀ e ∈ upload_embeddings [{ text := "t".data, source := "docA".data }]
        "other".data, e.id.take 6 = "other-".data) ∧
    (retrieve_context
        (upload_embeddings [{ text := "t".data, source := "docA".data }]
          "other".data)
        "q".data "mine".data).2 = ["docA".data] ∧
    ("mine".data : List Char) ≠ "other".data := by
  refine ⟨?_, ?_, ?_⟩ <;> decide

/-- C2 amended: `retrieve_context` queries the single configured index for
the top `5` ranked hits whatever the `collection` argument says (`k` is the
fixed `top_k=5` of the source), concatenates the hit contents in rank order
joined by newline, and returns the hit sources deduplicated as a set (no
duplicates, same underlying set; ranked hits with sources `a, a, b` yield
exactly 2 citations). -/
theorem retrieve_context_top5_dedup (index : List IndexedEntry)
    (q c c2 : List Char) :
    search index = index.take 5 ∧
    (retrieve_context index q c).1 =
      newlineJoin ((index.take 5).map IndexedEntry.content) ∧
    (retrieve_context index q c).2.Nodup ∧
    (retrieve_context index q c).2.toFinset =
      ((index.take 5).map IndexedEntry.source).toFinset ∧
    retrieve_context index q c2 = retrieve_context index q c ∧
    (retrieve_context
        [{ id := "i1".data, content := "c1".data, source := "a".data },
         { id := "i2".data, content := "c2".data, source := "a".data },
         { id := "i3".data, content := "c3".data, source := "b".data }]
        q c).2.length = 2 :=
  ⟨rfl, rfl, List.nodup_dedup _, ragDedupToFinset _, rfl, rfl⟩

/-- C1: the `/query` gate.  `fallback_used` is exactly `confidence < 0.65`
(strict: at `0.65` the generated answer is returned, at `0.64` the fallback
fires); a fallback response carries the fixed refusal text and empty
citations, a non-fallback response carries the generated answer and the
retrieval citations; both report the evaluated confidence. -/
theorem query_fallback_gate (index : List IndexedEntry)
    (generateFn : List Char → List Char → List Char)
    (question collection : List Char) :
    ((query index generateFn question collection).fallback_used = true ↔
      (query index generateFn question collection).confidence < 13/20) ∧
    (query index generateFn question collection).confidence =
      evaluate_answer
        (generateFn question (retrieve_context index question collection).1)
        (retrieve_context index question collection).1 ∧
    ((query index generateFn question collection).fallback_used = true →
      (query index generateFn question collection).answer = FALLBACK_TEXT ∧
      (query index generateFn question collection).citations = []) ∧
    ((query index generateFn question collection).fallback_used = false →
      (query index generateFn question collection).answer =
        generateFn question (retrieve_context index question collection).1 ∧
      (query index generateFn question collection).citations =
        (retrieve_context index question collection).2) ∧
    ((query index generateFn question collection).confidence = 13/20 →
      (query index generateFn question collection).fallback_used = false) ∧
    ((query index generateFn question collection).confidence = 16/25 →
      (query index generateFn question collection).fallback_used = true) := by
  by_cases h : evaluate_answer
      (generateFn question (retrieve_context index question collection).1)
      (retrieve_context index question collection).1 < 13/20
  · simp only [query, if_pos h]
    refine ⟨by simp [h], trivial, fun _ => ⟨trivial, trivial⟩, by simp,
      fun hc => ?_, fun _ => trivial⟩
    exact absurd (hc ▸ h) (lt_irrefl _)
  · simp only [query, if_neg h]
    refine ⟨by simp [h], trivial, by simp, fun _ => ⟨trivial, trivial⟩,
      fun _ => trivial, fun hc => ?_⟩
    exact absurd (show (16 : ℚ)/25 < 13/20 by norm_num) (hc ▸ h)

/-! ## Lemmas on the context assembler -/

theorem ragIntercalateLength (sep : List Char) :
    ∀ l : List (List Char), (List.intercalate sep l).length =
      (l.map List.length).sum + sep.length * (l.length - 1)
  | [] => by simp [ragIntercalateNil]
  | [x] => by simp [ragIntercalateSingleton]
  | x :: y :: t => by
    rw [ragIntercalateConsCons]
    have ih := ragIntercalateLength sep (y :: t)
    simp only [List.length_append, ih, List.map_cons, List.sum_cons,
      List.length_cons, Nat.add_sub_cancel]
    ring

theorem ragIntercalateLenBound (mc : Int) (formatted : List (List Char))
    (total : Nat)
    (hinv : (total : Int) = ((formatted.map List.length).sum : Int) +
      SEPARATOR.length * formatted.length)
    (htot : (total : Int) ≤ mc) (hmc : 0 ≤ mc) :
    ((List.intercalate SEPARATOR formatted).length : Int) ≤ mc := by
  rw [ragIntercalateLength]
  have hsep : ((SEPARATOR.length : Nat) : Int) = 7 := rfl
  cases formatted with
  | nil => simpa using hmc
  | cons x t =>
    simp only [List.length_cons, Nat.add_sub_cancel] at *
    push_cast at hinv ⊢
    rw [hsep] at hinv ⊢
    omega

theorem assembleGo_len_bound (mc : Int) (hmc : 100 ≤ mc)
    (rest : List DocumentContext) :
    ∀ (formatted : List (List Char)) (total : Nat),
      ((total : Int) = ((formatted.map List.length).sum : Int) +
        SEPARATOR.length * formatted.length) →
      ((total : Int) ≤ mc) →
      ((List.intercalate SEPARATOR
        (assembleGo mc SEPARATOR rest formatted total)).length : Int) ≤ mc := by
  induction rest with
  | nil =>
    intro formatted total hinv htot
    exact ragIntercalateLenBound mc formatted total hinv htot (by omega)
  | cons ctx rest ih =>
    intro formatted total hinv htot
    simp only [assembleGo]
    by_cases h1 : ((formatContext ctx).length : Int) > mc ∧ formatted = []
    · rw [if_pos h1, ragIntercalateSingleton]
      simp only [List.length_append, pySliceTo]
      rw [if_pos (by omega : (0 : Int) ≤ mc - 100)]
      simp only [List.length_take]
      have ht : ((mc - 100).toNat : Int) = mc - 100 :=
        Int.toNat_of_nonneg (by omega)
      have hmark : ((TRUNC_MARKER.length : Nat) : Int) = 16 := rfl
      push_cast
      omega
    · rw [if_neg h1]
      by_cases h2 : (total : Int) + (formatContext ctx).length +
          SEPARATOR.length > mc
      · rw [if_pos h2]
        exact ragIntercalateLenBound mc formatted total hinv htot (by omega)
      · rw [if_neg h2]
        apply ih
        · have hsep : ((SEPARATOR.length : Nat) : Int) = 7 := rfl
          simp only [List.map_append, List.sum_append, List.length_append,
            List.map_cons, List.sum_cons, List.length_cons, List.map_nil,
            List.sum_nil, List.length_nil]
          push_cast at hinv ⊢
          rw [hsep] at hinv ⊢
          omega
        · omega

/-- C3 counterexample: for `max_chars = 50` and a first item whose formatted
length is 60, the truncation branch runs `piece[: 50 - 100]`, a Python
negative slice that keeps all but the last 50 characters; the result has 26
characters, which exceeds the claimed bound
`max_chars - 100 + len(marker) = -34`.  The claim as universally stated over
`max_chars` is therefore false; it needs `max_chars ≥ 100`. -/
theorem assemble_context_block_short_mc_violates_bound :
    ((formatContext demoCtxLong).length : Int) > 50 ∧
    ¬ (((assemble_context_block [demoCtxLong] 50 SEPARATOR).length : Int) ≤
      50 - 100 + TRUNC_MARKER.length) := by
  refine ⟨?_, ?_⟩ <;> decide

/-- C3 amended: for every context sequence and every `max_chars ≥ 100` (so
that the Python slice `piece[: max_chars - 100]` is a genuine truncation),
the assembled block has at most `max_chars` characters, and in the
oversized-first-item truncation case at most
`max_chars - 100 + len("\n\n...[truncated]")` characters. -/
theorem assemble_context_block_len_bound (ctxs : List DocumentContext)
    (mc : Int) (hmc : 100 ≤ mc) :
    ((assemble_context_block ctxs mc SEPARATOR).length : Int) ≤ mc ∧
    (∀ c rest, ctxs = c :: rest → ((formatContext c).length : Int) > mc →
      ((assemble_context_block ctxs mc SEPARATOR).length : Int) ≤
        mc - 100 + TRUNC_MARKER.length) := by
  constructor
  · exact assembleGo_len_bound mc hmc ctxs [] 0 (by simp) (by omega)
  · rintro c rest rfl hbig
    simp only [assemble_context_block, assembleGo]
    rw [if_pos ⟨hbig, trivial⟩, ragIntercalateSingleton]
    simp only [List.length_append, pySliceTo]
    rw [if_pos (by omega : (0 : Int) ≤ mc - 100)]
    simp only [List.length_take]
    have ht : ((mc - 100).toNat : Int) = mc - 100 :=
      Int.toNat_of_nonneg (by omega)
    have hmark : ((TRUNC_MARKER.length : Nat) : Int) = 16 := rfl
    push_cast
    omega

/-- Witness for C3 (amended) at a concrete context list and `max_chars`. -/
theorem assemble_context_block_len_bound_witness :
    (100 : Int) ≤ 100 ∧
    (((assemble_context_block [demoCtxTiny] 100 SEPARATOR).length : Int) ≤ 100 ∧
    (∀ c rest, [demoCtxTiny] = c :: rest →
      ((formatContext c).length : Int) > 100 →
      ((assemble_context_block [demoCtxTiny] 100 SEPARATOR).length : Int) ≤
        100 - 100 + TRUNC_MARKER.length)) :=
  ⟨by norm_num,
    assemble_context_block_len_bound [demoCtxTiny] 100 (by norm_num)⟩

theorem assembleGo_extends (mc : Int) (sep : List Char)
    (rest : List DocumentContext) :
    ∀ (formatted : List (List Char)) (total : Nat), formatted ≠ [] →
      ∃ extra, assembleGo mc sep rest formatted total = formatted ++ extra := by
  induction rest with
  | nil =>
    intro formatted total _
    exact ⟨[], by simp [assembleGo]⟩
  | cons ctx rest ih =>
    intro formatted total hf
    simp only [assembleGo]
    have h1 : ¬ (((formatContext ctx).length : Int) > mc ∧ formatted = []) :=
      fun hcon => hf hcon.2
    rw [if_neg h1]
    by_cases h2 : (total : Int) + (formatContext ctx).length + sep.length > mc
    · rw [if_pos h2]
      exact ⟨[], by simp⟩
    · rw [if_neg h2]
      obtain ⟨e, he⟩ := ih (formatted ++ [formatContext ctx])
        (total + (formatContext ctx).length + sep.length) (by simp)
      exact ⟨formatContext ctx :: e, by rw [he, List.append_assoc]; rfl⟩

theorem ragIntercalateHeadNeNil (sep x : List Char) (xs : List (List Char))
    (hx : x ≠ []) : List.intercalate sep (x :: xs) ≠ [] := by
  cases xs with
  | nil => rw [ragIntercalateSingleton]; exact hx
  | cons y t =>
    rw [ragIntercalateConsCons]
    simp [hx]

theorem formatContext_ne_nil (c : DocumentContext) : formatContext c ≠ [] := by
  simp [formatContext]

/-- C4 counterexample: one context item whose formatted form has 8 characters
(`"[a]\nxxxx"`), with `max_chars = 10`: the item is not oversized
(`8 ≤ 10`) but `0 + 8 + len(separator) = 15 > 10`, so the greedy loop stops
before packing anything and the assembler returns the empty block even though
context exists.  The claim as stated (never empty for non-empty input) is
false at this input. -/
theorem assemble_context_block_empty_gap :
    assemble_context_block [demoCtxSmall] 10 SEPARATOR = [] ∧
    ([demoCtxSmall] : List DocumentContext) ≠ [] := by
  refine ⟨?_, ?_⟩ <;> decide

/-- C4 amended: for a non-empty context sequence the assembled block contains
at least the first item (possibly truncated) — hence is non-empty — provided
the first formatted item either fits together with one separator
(`len + len(separator) ≤ max_chars`) or exceeds `max_chars` (truncation
case).  (The uncovered gap `max_chars - len(separator) < len ≤ max_chars` is
exactly the counterexample above.) -/
theorem assemble_context_block_nonempty (c : DocumentContext)
    (rest : List DocumentContext) (mc : Int)
    (h : ((formatContext c).length : Int) + SEPARATOR.length ≤ mc ∨
      ((formatContext c).length : Int) > mc) :
    assemble_context_block (c :: rest) mc SEPARATOR ≠ [] := by
  have hsep : ((SEPARATOR.length : Nat) : Int) = 7 := rfl
  simp only [assemble_context_block, assembleGo]
  rcases h with hfit | hbig
  · have h1 : ¬ (((formatContext c).length : Int) > mc ∧ True) := by
      intro hcon
      have := hcon.1
      omega
    rw [if_neg h1]
    have h2 : ¬ (((0 : Nat) : Int) + (formatContext c).length +
        SEPARATOR.length > mc) := by
      push_cast
      omega
    rw [if_neg h2]
    obtain ⟨e, he⟩ := assembleGo_extends mc SEPARATOR rest [formatContext c]
      (0 + (formatContext c).length + SEPARATOR.length) (by simp)
    simp only [List.nil_append]
    rw [he]
    exact ragIntercalateHeadNeNil SEPARATOR (formatContext c) e
      (formatContext_ne_nil c)
  · rw [if_pos ⟨hbig, trivial⟩, ragIntercalateSingleton]
    simp [TRUNC_MARKER]

/-- Witness for C4 (amended) at a concrete item and `max_chars`. -/
theorem assemble_context_block_nonempty_witness :
    ((((formatContext demoCtxSmall).length : Int) + SEPARATOR.length ≤ 100 ∨
      ((formatContext demoCtxSmall).length : Int) > 100) ∧
    assemble_context_block [demoCtxSmall] 100 SEPARATOR ≠ []) :=
  ⟨Or.inl (by decide),
    assemble_context_block_nonempty demoCtxSmall [] 100 (Or.inl (by decide))⟩

/-! ## Lemmas on the storage path guard -/

/-- C10 exhibit: the guard in `_path_for` is a *string*-prefix check on the
rendered paths, not a directory check.  The key `"../database/secret"` under
root `"/data"` resolves to `"/database/secret"`, which is outside the root
directory (its components do not extend the root's components), yet
`str(candidate).startswith("/data")` is true, so no `StorageError` is raised
and the operation touches a file outside the root — against the code's own
`# Prevent escaping the storage root` intent.  An ordinary traversal to a
non-prefix sibling (`"../other/secret"`) is rejected, showing the guard is
the one at fault, not the model. -/
theorem path_for_prefix_check_escapes :
    path_for ["data"] ["..", "database", "secret"] =
      some ["database", "secret"] ∧
    (resolveComps (["data"] ++ ["..", "database", "secret"])).take
        (resolveComps ["data"]).length ≠ resolveComps ["data"] ∧
    path_for ["data"] ["..", "other", "secret"] = none := by
  refine ⟨?_, ?_, ?_⟩ <;> decide

/-! ## Lemmas on the confidence evaluator -/

theorem sumSizes_append (l1 l2 : List (Nat × Nat × Nat)) :
    sumSizes (l1 ++ l2) = sumSizes l1 + sumSizes l2 := by
  simp [sumSizes]

theorem sumSizes_cons (t : Nat × Nat × Nat) (l : List (Nat × Nat × Nat)) :
    sumSizes (t :: l) = t.2.2 + sumSizes l := by
  simp [sumSizes]

/-- The total matched size over the matching blocks of the rectangle
`[alo, ahi) × [blo, bhi)` is at most each of the side lengths. -/
theorem sumSizes_matchingBlocks_le (a b : List Char) (alo ahi blo bhi : Nat) :
    sumSizes (matchingBlocks a b alo ahi blo bhi) ≤ ahi - alo ∧
    sumSizes (matchingBlocks a b alo ahi blo bhi) ≤ bhi - blo := by
  induction alo, ahi, blo, bhi using matchingBlocks.induct a b with
  | case1 alo ahi blo bhi i j k hm h ih1 ih2 =>
    rw [matchingBlocks.eq_def]
    simp only [hm]
    rw [dif_pos h]
    rw [sumSizes_append, sumSizes_cons]
    obtain ⟨ih1a, ih1b⟩ := ih1
    obtain ⟨ih2a, ih2b⟩ := ih2
    obtain ⟨hk, hai, hik, hbj, hjk⟩ := h
    have hsz : ((i, j, k) : Nat × Nat × Nat).2.2 = k := rfl
    rw [hsz]
    constructor <;> omega
  | case2 alo ahi blo bhi i j k hm h =>
    rw [matchingBlocks.eq_def]
    simp only [hm]
    rw [dif_neg h]
    simp [sumSizes]

theorem ratioQ_bounds (a b : List Char) : 0 ≤ ratioQ a b ∧ ratioQ a b ≤ 1 := by
  unfold ratioQ
  by_cases h : a.length + b.length = 0
  · rw [if_pos h]
    norm_num
  · rw [if_neg h]
    have hm := sumSizes_matchingBlocks_le a b 0 a.length 0 b.length
    have h2 : 2 * matchSum a b ≤ a.length + b.length := by
      unfold matchSum
      omega
    have hT : (0 : ℚ) < (a.length : ℚ) + (b.length : ℚ) := by
      have hpos : 0 < a.length + b.length := Nat.pos_of_ne_zero h
      exact_mod_cast hpos
    constructor
    · apply div_nonneg _ (le_of_lt hT)
      positivity
    · rw [div_le_one hT]
      exact_mod_cast h2

theorem roundMono (x y : ℚ) (hxy : x ≤ y) : round x ≤ round y := by
  rw [round_eq, round_eq]
  exact Int.floor_le_floor (by linarith)

theorem pyRound2_bounds (q : ℚ) (h0 : 0 ≤ q) (h1 : q ≤ 1) :
    0 ≤ pyRound2 q ∧ pyRound2 q ≤ 1 := by
  unfold pyRound2
  have ha : (0 : ℤ) ≤ round (q * 100) := by
    have hstep := roundMono 0 (q * 100) (by positivity)
    rwa [round_zero] at hstep
  have hb : round (q * 100) ≤ 100 := by
    have hstep := roundMono (q * 100) 100 (by linarith)
    have h100 : round ((100 : ℚ)) = (100 : ℤ) := by
      rw [round_eq]
      norm_num
    rwa [h100] at hstep
  constructor
  · apply div_nonneg _ (by norm_num)
    exact_mod_cast ha
  · rw [div_le_one (by norm_num)]
    exact_mod_cast hb

/-- C9: the evaluator is `round₂` of the `SequenceMatcher` ratio
`2 · matched / (len a + len b)` (and `1` on two empty strings) computed on
the lower-cased inputs; it is invariant under case changes of either input,
and always lies in `[0, 1]`. -/
theorem evaluate_answer_props (ans ctx ans2 ctx2 : List Char)
    (h1 : lowerStr ans2 = lowerStr ans) (h2 : lowerStr ctx2 = lowerStr ctx) :
    evaluate_answer ans ctx =
      pyRound2 (if (lowerStr ans).length + (lowerStr ctx).length = 0 then 1
        else 2 * (matchSum (lowerStr ans) (lowerStr ctx) : ℚ) /
          (((lowerStr ans).length : ℚ) + ((lowerStr ctx).length : ℚ))) ∧
    evaluate_answer ans2 ctx2 = evaluate_answer ans ctx ∧
    0 ≤ evaluate_answer ans ctx ∧ evaluate_answer ans ctx ≤ 1 := by
  refine ⟨rfl, ?_, ?_⟩
  · unfold evaluate_answer
    rw [h1, h2]
  · have hr := ratioQ_bounds (lowerStr ans) (lowerStr ctx)
    exact pyRound2_bounds _ hr.1 hr.2

/-- Witness for C9 at concrete strings differing only in letter case. -/
theorem evaluate_answer_props_witness :
    (lowerStr "aB".data = lowerStr "ab".data ∧
      lowerStr "BA".data = lowerStr "ba".data) ∧
    (evaluate_answer "ab".data "ba".data =
      pyRound2 (if (lowerStr "ab".data).length + (lowerStr "ba".data).length = 0
        then 1
        else 2 * (matchSum (lowerStr "ab".data) (lowerStr "ba".data) : ℚ) /
          (((lowerStr "ab".data).length : ℚ) +
            ((lowerStr "ba".data).length : ℚ))) ∧
    evaluate_answer "aB".data "BA".data = evaluate_answer "ab".data "ba".data ∧
    0 ≤ evaluate_answer "ab".data "ba".data ∧
    evaluate_answer "ab".data "ba".data ≤ 1) :=
  ⟨⟨by decide, by decide⟩,
    evaluate_answer_props "ab".data "ba".data "aB".data "BA".data
      (by decide) (by decide)⟩

/-! ## Fidelity of the `matchingBlocks` guard

`find_longest_match` always returns a block inside the query rectangle, so
the defensive bounds conjuncts in the guard of `matchingBlocks` never fire:
the recursion is exactly CPython's `if k:` split. -/

theorem flmNewf_le (c : Char) (b : List Char) (blo bhi : Nat) (f : Nat → Nat)
    (bnd : Nat) (hf : ∀ j, f j ≤ bnd) :
    ∀ j, flmNewf c b blo bhi f j ≤ bnd + 1 := by
  intro j
  unfold flmNewf
  split
  · split
    · omega
    · have := hf (j - 1)
      omega
  · omega

theorem validBlock_mk (alo ahi blo bhi x y z : Nat) :
    validBlock alo ahi blo bhi (x, y, z) ↔
      (alo ≤ x ∧ blo ≤ y ∧ x + z ≤ ahi ∧ y + z ≤ bhi) :=
  Iff.rfl

theorem flmNewf_pos (c : Char) (b : List Char) (blo bhi : Nat) (f : Nat → Nat)
    (hf : ∀ j, f j ≠ 0 → blo ≤ j ∧ j < bhi ∧ f j ≤ j + 1 - blo) :
    ∀ j, flmNewf c b blo bhi f j ≠ 0 →
      blo ≤ j ∧ j < bhi ∧ flmNewf c b blo bhi f j ≤ j + 1 - blo := by
  intro j
  unfold flmNewf
  split
  · rename_i hcond
    intro _
    obtain ⟨hb1, hb2, _, _⟩ := hcond
    refine ⟨hb1, hb2, ?_⟩
    split
    · omega
    · rename_i hj0
      by_cases hz : f (j - 1) = 0
      · rw [hz]
        omega
      · have h3 := (hf (j - 1) hz).2.2
        have hbj : blo ≤ j - 1 := (hf (j - 1) hz).1
        omega
  · intro hcon
    exact absurd rfl hcon

theorem flmRowBest_valid (c : Char) (b : List Char)
    (alo ahi blo bhi i : Nat) (newf : Nat → Nat) (best : Nat × Nat × Nat)
    (hi1 : alo ≤ i) (hi2 : i < ahi)
    (hn1 : ∀ j, newf j ≤ i + 1 - alo)
    (hn2 : ∀ j, newf j ≠ 0 → blo ≤ j ∧ j < bhi ∧ newf j ≤ j + 1 - blo)
    (hb : validBlock alo ahi blo bhi best) :
    validBlock alo ahi blo bhi (flmRowBest c b blo bhi i newf best) := by
  unfold flmRowBest
  refine List.foldlRecOn (List.range' blo (bhi - blo)) _ best hb
    (fun best hbest j hj => ?_)
  by_cases hc : b.getD j ' ' = c ∧ bPopular b c = false ∧ best.2.2 < newf j
  · rw [if_pos hc]
    have hk : newf j ≠ 0 := by omega
    obtain ⟨hjb, hjh, hjbound⟩ := hn2 j hk
    have hrow := hn1 j
    rw [validBlock_mk]
    refine ⟨by omega, by omega, by omega, by omega⟩
  · rw [if_neg hc]
    exact hbest

theorem flmFoldRows_valid (a b : List Char) (alo ahi blo bhi : Nat) :
    ∀ (m s : Nat) (f : Nat → Nat) (best : Nat × Nat × Nat),
      alo ≤ s → s + m ≤ ahi →
      (∀ j, f j ≤ s - alo) →
      (∀ j, f j ≠ 0 → blo ≤ j ∧ j < bhi ∧ f j ≤ j + 1 - blo) →
      validBlock alo ahi blo bhi best →
      validBlock alo ahi blo bhi
        (((List.range' s m).foldl
          (fun st i =>
            let c := a.getD i ' '
            let newf := flmNewf c b blo bhi st.1
            (newf, flmRowBest c b blo bhi i newf st.2)) (f, best)).2) := by
  intro m
  induction m with
  | zero =>
    intro s f best _ _ _ _ hb
    simpa using hb
  | succ n ih =>
    intro s f best hs hsm hf1 hf2 hb
    rw [List.range'_succ, List.foldl_cons]
    refine ih (s + 1) (flmNewf (a.getD s ' ') b blo bhi f)
      (flmRowBest (a.getD s ' ') b blo bhi s
        (flmNewf (a.getD s ' ') b blo bhi f) best)
      (by omega) (by omega) ?_ ?_ ?_
    · intro j
      have := flmNewf_le (a.getD s ' ') b blo bhi f (s - alo) hf1 j
      omega
    · exact flmNewf_pos (a.getD s ' ') b blo bhi f hf2
    · refine flmRowBest_valid (a.getD s ' ') b alo ahi blo bhi s
        (flmNewf (a.getD s ' ') b blo bhi f) best hs (by omega) ?_
        (flmNewf_pos (a.getD s ' ') b blo bhi f hf2) hb
      intro j
      have := flmNewf_le (a.getD s ' ') b blo bhi f (s - alo) hf1 j
      omega

theorem flmDP_valid (a b : List Char) (alo ahi blo bhi : Nat)
    (h1 : alo ≤ ahi) (h2 : blo ≤ bhi) :
    validBlock alo ahi blo bhi (flmDP a b alo ahi blo bhi) := by
  unfold flmDP
  refine flmFoldRows_valid a b alo ahi blo bhi (ahi - alo) alo (fun _ => 0)
    (alo, blo, 0) le_rfl (by omega) (fun _ => Nat.zero_le _)
    (fun _ hj => absurd rfl hj) ?_
  rw [validBlock_mk]
  exact ⟨le_rfl, le_rfl, by omega, by omega⟩

theorem extendBack_valid (a b : List Char) (alo blo ahi bhi : Nat) :
    ∀ (besti bestj bestsize : Nat),
      alo ≤ besti → blo ≤ bestj → besti + bestsize ≤ ahi →
      bestj + bestsize ≤ bhi →
      validBlock alo ahi blo bhi (extendBack a b alo blo besti bestj bestsize) := by
  intro besti bestj bestsize
  induction besti, bestj, bestsize using extendBack.induct a b alo blo with
  | case1 besti bestj bestsize hcond ih =>
    intro hb1 hb2 hb3 hb4
    rw [extendBack.eq_def, dif_pos hcond]
    obtain ⟨hc1, hc2, _⟩ := hcond
    exact ih (by omega) (by omega) (by omega) (by omega)
  | case2 besti bestj bestsize hcond =>
    intro hb1 hb2 hb3 hb4
    rw [extendBack.eq_def, dif_neg hcond]
    exact ⟨hb1, hb2, hb3, hb4⟩

theorem extendFwd_valid (a b : List Char) (ahi bhi besti bestj : Nat) :
    ∀ bestsize, besti + bestsize ≤ ahi → bestj + bestsize ≤ bhi →
      (extendFwd a b ahi bhi besti bestj bestsize).1 = besti ∧
      (extendFwd a b ahi bhi besti bestj bestsize).2.1 = bestj ∧
      besti + (extendFwd a b ahi bhi besti bestj bestsize).2.2 ≤ ahi ∧
      bestj + (extendFwd a b ahi bhi besti bestj bestsize).2.2 ≤ bhi := by
  intro bestsize
  induction bestsize using extendFwd.induct a b ahi bhi besti bestj with
  | case1 x hcond ih =>
    intro hb1 hb2
    rw [extendFwd.eq_def, dif_pos hcond]
    obtain ⟨hc1, hc2, _⟩ := hcond
    exact ih (by omega) (by omega)
  | case2 x hcond =>
    intro hb1 hb2
    rw [extendFwd.eq_def, dif_neg hcond]
    exact ⟨rfl, rfl, hb1, hb2⟩

/-- `find_longest_match` returns a block inside the query rectangle whenever
the rectangle is well formed, as CPython guarantees. -/
theorem find_longest_match_valid (a b : List Char) (alo ahi blo bhi : Nat)
    (h1 : alo ≤ ahi) (h2 : blo ≤ bhi) :
    validBlock alo ahi blo bhi (find_longest_match a b alo ahi blo bhi) := by
  obtain ⟨hd1, hd2, hd3, hd4⟩ := flmDP_valid a b alo ahi blo bhi h1 h2
  obtain ⟨he1, he2, he3, he4⟩ := extendBack_valid a b alo blo ahi bhi
    (flmDP a b alo ahi blo bhi).1 (flmDP a b alo ahi blo bhi).2.1
    (flmDP a b alo ahi blo bhi).2.2 hd1 hd2 hd3 hd4
  obtain ⟨hf1, hf2, hf3, hf4⟩ := extendFwd_valid a b ahi bhi
    (extendBack a b alo blo (flmDP a b alo ahi blo bhi).1
      (flmDP a b alo ahi blo bhi).2.1 (flmDP a b alo ahi blo bhi).2.2).1
    (extendBack a b alo blo (flmDP a b alo ahi blo bhi).1
      (flmDP a b alo ahi blo bhi).2.1 (flmDP a b alo ahi blo bhi).2.2).2.1
    (extendBack a b alo blo (flmDP a b alo ahi blo bhi).1
      (flmDP a b alo ahi blo bhi).2.1 (flmDP a b alo ahi blo bhi).2.2).2.2
    he3 he4
  show validBlock alo ahi blo bhi (extendFwd a b ahi bhi
    (extendBack a b alo blo (flmDP a b alo ahi blo bhi).1
      (flmDP a b alo ahi blo bhi).2.1 (flmDP a b alo ahi blo bhi).2.2).1
    (extendBack a b alo blo (flmDP a b alo ahi blo bhi).1
      (flmDP a b alo ahi blo bhi).2.1 (flmDP a b alo ahi blo bhi).2.2).2.1
    (extendBack a b alo blo (flmDP a b alo ahi blo bhi).1
      (flmDP a b alo ahi blo bhi).2.1 (flmDP a b alo ahi blo bhi).2.2).2.2)
  refine ⟨?_, ?_, ?_, ?_⟩
  · rw [hf1]
    exact he1
  · rw [hf2]
    exact he2
  · rw [hf1]
    exact hf3
  · rw [hf2]
    exact hf4

/-- Over a well-formed rectangle, `matchingBlocks` satisfies exactly
CPython's recursion: split iff the longest match is non-empty — the
defensive bounds conjuncts of the definition's guard never decide the
branch. -/
theorem matchingBlocks_guard_faithful (a b : List Char) (alo ahi blo bhi : Nat)
    (h1 : alo ≤ ahi) (h2 : blo ≤ bhi) :
    matchingBlocks a b alo ahi blo bhi =
      if 0 < (find_longest_match a b alo ahi blo bhi).2.2 then
        matchingBlocks a b alo (find_longest_match a b alo ahi blo bhi).1 blo
            (find_longest_match a b alo ahi blo bhi).2.1 ++
          find_longest_match a b alo ahi blo bhi ::
            matchingBlocks a b
              ((find_longest_match a b alo ahi blo bhi).1 +
                (find_longest_match a b alo ahi blo bhi).2.2) ahi
              ((find_longest_match a b alo ahi blo bhi).2.1 +
                (find_longest_match a b alo ahi blo bhi).2.2) bhi
      else [] := by
  obtain ⟨hv1, hv2, hv3, hv4⟩ := find_longest_match_valid a b alo ahi blo bhi h1 h2
  rcases hfm : find_longest_match a b alo ahi blo bhi with ⟨i, j, k⟩
  rw [hfm] at hv1 hv2 hv3 hv4
  simp only at hv1 hv2 hv3 hv4
  rw [matchingBlocks.eq_def]
  simp only [hfm]
  by_cases hk : 0 < k
  · rw [if_pos hk]
    rw [dif_pos ⟨hk, hv1, hv3, hv2, hv4⟩]
  · rw [if_neg hk]
    rw [dif_neg (by intro hcon; exact hk hcon.1)]

end RagSpec
